import Mathlib

/-!
Verification of the bencode decoder in shashitnak/bittorrent-rs.

The decoder lives twice in the repository: `src/lib.rs` (with a dict decoder)
and `src/main.rs` (without one).  Both operate on a cursor
(`BencodedDecodeInput`): an index into a shared, immutable character list.
This file is a shallow embedding of both copies.

Modelling conventions, matched to the Rust source:
  - `Cursor` embeds `BencodedDecodeInput` (a `usize` index plus an `Rc`
    shared `Vec<char>`); `cursorNext` embeds the iterator step
    `data.get(index)` followed by `index += 1`.
  - Each Rust `try_decode` becomes a function `Cursor → Option (Value × Cursor)`;
    `runDecoder` embeds the provided method `run_decoder`, which restores the
    original cursor when `try_decode` returns `None`.
  - The interleaved lazy iterator pipelines (`take_while` plus `fold`) are
    embedded as: first the consumption loop (`readLen`, `readUntilE`,
    `takeChars`), then a pure fold over the consumed characters
    (`foldAcc`, `foldAccInt`); this has the same result and the same final
    cursor as the interleaved Rust computation.
  - The loop helpers recurse on an explicit counter that starts at the number
    of remaining characters; every iteration either consumes one character or
    stops, so the counter never runs out before the Rust loop would stop.
    The list and dict loops recurse on a fuel argument for the same reason;
    the top entry points pass `length + 1` fuel, which is enough because every
    continuing iteration of a decode loop consumes at least one character.
  - Integers use `Int` (the Rust code uses `i64`; overflow behaviour is
    explicitly left unspecified by the spec and is outside every claim).
-/

/-- Embeds `BencodedDecodeInput` from `src/lib.rs`: an index plus the shared
character data (the `Rc<Vec<char>>` is never mutated, so a plain list). -/
structure Cursor where
  index : Nat
  data : List Char
deriving DecidableEq, Repr

/-- Embeds one step of `BencodedDecodeInputIterMut::next` (identical to
`BencodedDecodeInputIter::next`): `self.input.data.get(self.input.index)`,
and on a hit the index advances by one. -/
def cursorNext (c : Cursor) : Option (Char × Cursor) :=
  match c.data[c.index]? with
  | some ch => some (ch, { index := c.index + 1, data := c.data })
  | none => none

/-- Embeds `serde_json::Value` as used by the decoder: String, Number (i64),
Array, Object.  The object is an insertion-ordered association list; see
`mapInsert` for the modelling note on `serde_json::Map`. -/
inductive Value where
  | str : String → Value
  | int : Int → Value
  | list : List Value → Value
  | dict : List (String × Value) → Value

/-- Embeds `char::to_digit(10)`: `some d` exactly on the characters
`'0'` through `'9'`. -/
def charToDigit (ch : Char) : Option Nat :=
  if '0' ≤ ch ∧ ch ≤ '9' then some (ch.toNat - '0'.toNat) else none

/-- Embeds `Decoder::run_decoder` from both files: run `try_decode` on a clone;
on failure return `None` together with the original (unchanged) cursor. -/
def runDecoder (f : Cursor → Option (Value × Cursor)) (c : Cursor) :
    Option Value × Cursor :=
  match f c with
  | some (v, rest) => (some v, rest)
  | none => (none, c)

/-- Loop body of the length phase of `StringDecoder::try_decode`:
`iter_mut().take_while(ch != colon)` interleaved with the digit fold.  The
counter argument starts at the number of remaining characters (`readLen`), so
the `0` case can only be reached with the cursor at the end of the data, where
the Rust iterator stops as well. -/
def readLenAux : Nat → Cursor → Option Nat → Option Nat × Cursor
  | 0, c, acc => (acc, c)
  | Nat.succ n, c, acc =>
    match cursorNext c with
    | none => (acc, c)
    | some (ch, c1) =>
      if ch = ':' then (acc, c1)
      else readLenAux n c1 (acc.bind fun a => (charToDigit ch).map fun d => 10 * a + d)

/-- The length phase of `StringDecoder::try_decode`: consume characters up to
and including the first `':'` (or to the end of input), folding the digits as
`acc = 10 * acc + digit`; a non-digit makes the accumulator `none`, but the
consumption still runs to the `':'` or the end, exactly as the eager Rust
`fold` over the `take_while` iterator does. -/
def readLen (c : Cursor) (acc : Option Nat) : Option Nat × Cursor :=
  readLenAux (c.data.length - c.index) c acc

/-- Embeds `iter_mut().take(n).collect()`: consume up to `n` characters
(fewer if the input ends first) and return them with the advanced cursor. -/
def takeChars : Cursor → Nat → List Char × Cursor
  | c, 0 => ([], c)
  | c, Nat.succ n =>
    match cursorNext c with
    | none => ([], c)
    | some (ch, c1) =>
      match takeChars c1 n with
      | (rest, c2) => (ch :: rest, c2)

/-- Embeds `StringDecoder::try_decode` from `src/lib.rs` (the copy in
`src/main.rs` is identical): read the length prefix up to `':'`, then take
that many characters as the content.  Note the Rust code does not require the
`':'` to be present, nor that `len` characters actually remain. -/
def stringTry (c : Cursor) : Option (Value × Cursor) :=
  match readLen c (some 0) with
  | (none, _) => none
  | (some len, c1) =>
    match takeChars c1 len with
    | (chars, c2) => some (Value.str (String.mk chars), c2)

/-- Loop body of `iter_mut().skip(1).take_while(ch != e-marker)` consumption
in `IntegerDecoder::try_decode`: consume characters up to and including the
first `'e'` (or to the end), returning the consumed characters before the
`'e'`.  Counter convention as in `readLenAux`. -/
def readUntilEAux : Nat → Cursor → List Char × Cursor
  | 0, c => ([], c)
  | Nat.succ n, c =>
    match cursorNext c with
    | none => ([], c)
    | some (ch, c1) =>
      if ch = 'e' then ([], c1)
      else
        match readUntilEAux n c1 with
        | (l, c2) => (ch :: l, c2)

/-- See `readUntilEAux`. -/
def readUntilE (c : Cursor) : List Char × Cursor :=
  readUntilEAux (c.data.length - c.index) c

/-- The digit fold of `IntegerDecoder::try_decode` over the already-consumed
characters: `acc = 10 * acc + digit` with `i64` accumulation (embedded as
`Int`), failing on a non-digit. -/
def foldAccInt (acc : Option Int) (ds : List Char) : Option Int :=
  ds.foldl (fun a ch => a.bind fun x => (charToDigit ch).map fun d => 10 * x + Int.ofNat d) acc

/-- Embeds `IntegerDecoder::try_decode` from `src/lib.rs` (identical in
`src/main.rs`).  `skip(1)` consumes the leading character unconditionally;
the first yielded character is taken as a digit, or else — whatever it is —
as a sign marker with the next character the first digit; the remaining
characters up to `'e'` or end of input are folded as digits; the result is
negated when the sign-marker branch was taken. -/
def intTry (c : Cursor) : Option (Value × Cursor) :=
  match cursorNext c with
  | none => none
  | some (_, c1) =>
    match cursorNext c1 with
    | none => none
    | some (ch1, c2) =>
      if ch1 = 'e' then none
      else
        match charToDigit ch1 with
        | some d =>
          match readUntilE c2 with
          | (ds, c3) =>
            match foldAccInt (some (Int.ofNat d)) ds with
            | none => none
            | some num => some (Value.int num, c3)
        | none =>
          match cursorNext c2 with
          | none => none
          | some (ch2, c3) =>
            if ch2 = 'e' then none
            else
              match charToDigit ch2 with
              | none => none
              | some d =>
                match readUntilE c3 with
                | (ds, c4) =>
                  match foldAccInt (some (Int.ofNat d)) ds with
                  | none => none
                  | some num => some (Value.int (-num), c4)

/-- The five decoder choices of `BencodedDecodeInput::next_decoder` in
`src/lib.rs` (String, Integer, List, Dict, Failure). -/
inductive DecoderKind where
  | str | int | list | dict | fail
deriving DecidableEq, Repr

/-- Embeds `BencodedDecodeInput::next_decoder` from `src/lib.rs`: look at the
next character without consuming (`self.iter().next()` runs on a clone). -/
def next_decoder (c : Cursor) : DecoderKind :=
  match cursorNext c with
  | none => DecoderKind.fail
  | some (ch, _) =>
    if '0' ≤ ch ∧ ch ≤ '9' then DecoderKind.str
    else if ch = 'i' then DecoderKind.int
    else if ch = 'l' then DecoderKind.list
    else if ch = 'd' then DecoderKind.dict
    else DecoderKind.fail

/-- Modelled from the spec: the Cargo manifest of the repository is not under
`src/`, and it decides which map `serde_json::Map` is (the `preserve_order`
feature).  The spec states the mapping preserves insertion order and resolves
duplicate keys last-write-wins, so the map is an association list where
inserting an existing key overwrites its value in place and a new key is
appended. -/
def mapInsert (m : List (String × Value)) (k : String) (v : Value) :
    List (String × Value) :=
  if m.any (fun p => p.1 = k) then m.map (fun p => if p.1 = k then (k, v) else p)
  else m ++ [(k, v)]

/-- Embeds `collect::<serde_json::Map<_, _>>()`: insert the yielded pairs in
order into the (spec-modelled, see `mapInsert`) map. -/
def buildMap (ps : List (String × Value)) : List (String × Value) :=
  ps.foldl (fun m kv => mapInsert m kv.1 kv.2) []

mutual

/-- Runs the `src/lib.rs` decoder selected by `next_decoder`:
`StringDecoder`, `IntegerDecoder`, `ListDecoder`, `DictDecoder` or
`FailureDecoder`.  The list and dict cases embed `ListDecoder::try_decode`
and `DictDecoder::try_decode`: consume the opening marker, collect the
element iterator, then require and consume the closing `'e'`. -/
def decodeK : Nat → DecoderKind → Cursor → Option (Value × Cursor)
  | _, DecoderKind.str, c => stringTry c
  | _, DecoderKind.int, c => intTry c
  | _, DecoderKind.fail, _ => none
  | 0, DecoderKind.list, _ => none
  | Nat.succ fuel, DecoderKind.list, c =>
    match cursorNext c with
    | none => none
    | some (ch, c1) =>
      if ch = 'l' then
        match decodeElems fuel c1 with
        | (elems, c2) =>
          match cursorNext c2 with
          | none => none
          | some (ch2, c3) => if ch2 = 'e' then some (Value.list elems, c3) else none
      else none
  | 0, DecoderKind.dict, _ => none
  | Nat.succ fuel, DecoderKind.dict, c =>
    match cursorNext c with
    | none => none
    | some (ch, c1) =>
      if ch = 'd' then
        match decodePairs fuel c1 with
        | (pairs, c2) =>
          match cursorNext c2 with
          | none => none
          | some (ch2, c3) => if ch2 = 'e' then some (Value.dict (buildMap pairs), c3) else none
      else none

/-- Embeds `BencodedDecodeListIterMut::next` collected into a `Vec`: each
step dispatches `next_decoder`, runs it with `run_decoder` (so a failing step
leaves the cursor untouched), and the loop stops at the first failure. -/
def decodeElems : Nat → Cursor → List Value × Cursor
  | 0, c => ([], c)
  | Nat.succ fuel, c =>
    match runDecoder (decodeK fuel (next_decoder c)) c with
    | (none, c1) => ([], c1)
    | (some v, c1) =>
      match decodeElems fuel c1 with
      | (vs, c2) => (v :: vs, c2)

/-- Embeds `BencodedDecodeDictIterMut::next` collected into the map: each
step decodes a key with `StringDecoder.run_decoder` (advancing the cursor on
success even when no value follows), then dispatch-decodes a value; the loop
stops when either part fails. -/
def decodePairs : Nat → Cursor → List (String × Value) × Cursor
  | 0, c => ([], c)
  | Nat.succ fuel, c =>
    match runDecoder stringTry c with
    | (none, c1) => ([], c1)
    | (some (Value.str key), c1) =>
      match runDecoder (decodeK fuel (next_decoder c1)) c1 with
      | (none, c2) => ([], c2)
      | (some v, c2) =>
        match decodePairs fuel c2 with
        | (ps, c3) => ((key, v) :: ps, c3)
    | (some _, c1) => ([], c1)

end

/-- Embeds `decode_bencoded_value` from `src/lib.rs`: build a fresh cursor
over the characters, dispatch once, run the chosen decoder; the `panic!` on
the `None` branch is modelled as the `none` result. -/
def decode_bencoded_value (s : String) : Option Value :=
  (runDecoder (decodeK (s.length + 1) (next_decoder ⟨0, s.toList⟩)) ⟨0, s.toList⟩).1

/-- The decoder choices of `BencodedDecodeInput::next_decoder` in
`src/main.rs`: that copy has no dict decoder at all. -/
inductive MainKind where
  | str | int | list | fail
deriving DecidableEq, Repr

/-- Embeds `BencodedDecodeInput::next_decoder` from `src/main.rs`: as in
`src/lib.rs` but with no `'d'` arm, so `'d'` falls to the failure decoder. -/
def mainNextDecoder (c : Cursor) : MainKind :=
  match cursorNext c with
  | none => MainKind.fail
  | some (ch, _) =>
    if '0' ≤ ch ∧ ch ≤ '9' then MainKind.str
    else if ch = 'i' then MainKind.int
    else if ch = 'l' then MainKind.list
    else MainKind.fail

mutual

/-- Runs the `src/main.rs` decoder selected by `mainNextDecoder`.  The list
case embeds the `ListDecoder::try_decode` of that file, which — unlike the
`src/lib.rs` copy — neither requires nor consumes a closing `'e'`: it
consumes `'l'`, collects elements until one fails, and succeeds. -/
def mainDecodeK : Nat → MainKind → Cursor → Option (Value × Cursor)
  | _, MainKind.str, c => stringTry c
  | _, MainKind.int, c => intTry c
  | _, MainKind.fail, _ => none
  | 0, MainKind.list, _ => none
  | Nat.succ fuel, MainKind.list, c =>
    match cursorNext c with
    | none => none
    | some (ch, c1) =>
      if ch = 'l' then
        match mainDecodeElems fuel c1 with
        | (elems, c2) => some (Value.list elems, c2)
      else none

/-- Embeds `BencodedDecodeIterMut::next` from `src/main.rs` collected into a
`Vec`; same structure as `decodeElems` but dispatching via
`mainNextDecoder`. -/
def mainDecodeElems : Nat → Cursor → List Value × Cursor
  | 0, c => ([], c)
  | Nat.succ fuel, c =>
    match runDecoder (mainDecodeK fuel (mainNextDecoder c)) c with
    | (none, c1) => ([], c1)
    | (some v, c1) =>
      match mainDecodeElems fuel c1 with
      | (vs, c2) => (v :: vs, c2)

end

/-- Embeds `decode_bencoded_value` from `src/main.rs` (same wrapper as the
`src/lib.rs` copy, over the dispatcher and decoders of that file). -/
def main_decode_bencoded_value (s : String) : Option Value :=
  (runDecoder (mainDecodeK (s.length + 1) (mainNextDecoder ⟨0, s.toList⟩)) ⟨0, s.toList⟩).1

example : decode_bencoded_value "4:spam" = some (Value.str "spam") := by rfl
example : decode_bencoded_value "0:" = some (Value.str "") := by rfl
example : decode_bencoded_value "i3e" = some (Value.int 3) := by rfl
example : decode_bencoded_value "i-3e" = some (Value.int (-3)) := by rfl
example : decode_bencoded_value "le" = some (Value.list []) := by rfl
example : decode_bencoded_value "l4:spam4:eggse"
    = some (Value.list [Value.str "spam", Value.str "eggs"]) := by rfl
example : decode_bencoded_value "li32elei2e1:se"
    = some (Value.list [Value.int 32, Value.list [], Value.int 2, Value.str "s"]) := by rfl
example : decode_bencoded_value "de" = some (Value.dict []) := by rfl
example : decode_bencoded_value "d3:cow3:moo4:spam4:eggse"
    = some (Value.dict [("cow", Value.str "moo"), ("spam", Value.str "eggs")]) := by rfl
example : decode_bencoded_value "d4:spaml1:a1:bee"
    = some (Value.dict [("spam", Value.list [Value.str "a", Value.str "b"])]) := by rfl
example : decode_bencoded_value "i3" = some (Value.int 3) := by rfl
example : decode_bencoded_value "4spam" = none := by rfl
example : decode_bencoded_value "10:abc" = some (Value.str "abc") := by rfl
example : decode_bencoded_value "l4:spam" = none := by rfl
example : decode_bencoded_value "d3:foo3:bar" = none := by rfl
example : decode_bencoded_value "" = none := by rfl
example : decode_bencoded_value "d3:fooe" = some (Value.dict []) := by rfl
example : decode_bencoded_value "i+3e" = some (Value.int (-3)) := by rfl
example : decode_bencoded_value "5" = some (Value.str "") := by rfl
example : main_decode_bencoded_value "l4:spam" = some (Value.list [Value.str "spam"]) := by rfl
example : main_decode_bencoded_value "de" = none := by rfl
example : main_decode_bencoded_value "i3e" = some (Value.int 3) := by rfl

/-! ### Cursor lemmas -/

theorem cursorNext_of_drop_nil {c : Cursor} (h : c.data.drop c.index = []) :
    cursorNext c = none := by
  have hlen : c.data.length - c.index = 0 := by
    have := congrArg List.length h
    simpa [List.length_drop] using this
  unfold cursorNext
  rw [List.getElem?_eq_none (by omega)]

theorem cursorNext_of_drop_cons {c : Cursor} {ch : Char} (rest : List Char)
    (h : c.data.drop c.index = ch :: rest) :
    cursorNext c = some (ch, ⟨c.index + 1, c.data⟩)
      ∧ c.data.drop (c.index + 1) = rest ∧ c.index < c.data.length := by
  have hlt : c.index < c.data.length := by
    by_contra hn
    push_neg at hn
    rw [List.drop_eq_nil_of_le hn] at h
    exact absurd h (by simp)
  have hhead : c.data[c.index]? = some ch := by
    have h1 : (c.data.drop c.index).head? = some ch := by rw [h]; rfl
    rwa [List.head?_drop] at h1
  refine ⟨?_, ?_, hlt⟩
  · unfold cursorNext
    rw [hhead]
  · have := List.tail_drop c.data c.index
    rw [h] at this
    exact this.symm

theorem remaining_of_drop {c : Cursor} {l : List Char}
    (h : c.data.drop c.index = l) : c.data.length - c.index = l.length := by
  have := congrArg List.length h
  simpa [List.length_drop] using this

/-! ### Characterizing the length-prefix loop of `StringDecoder::try_decode` -/

/-- The pure digit fold of the string length phase, over the characters that
the `take_while` loop yielded. -/
def foldAcc (acc : Option Nat) (ds : List Char) : Option Nat :=
  ds.foldl (fun a ch => a.bind fun x => (charToDigit ch).map fun d => 10 * x + d) acc

theorem readLenAux_colon {ds : List Char} :
    ∀ {n : Nat} {c : Cursor} {rest : List Char} {acc : Option Nat},
    (∀ ch ∈ ds, ch ≠ ':') → c.data.drop c.index = ds ++ ':' :: rest →
    ds.length + 1 ≤ n →
    readLenAux n c acc = (foldAcc acc ds, ⟨c.index + ds.length + 1, c.data⟩) := by
  induction ds with
  | nil =>
    intro n c rest acc _ hdrop hn
    match n, hn with
    | Nat.succ n, _ =>
      obtain ⟨hnext, -, -⟩ := cursorNext_of_drop_cons _ hdrop
      simp [readLenAux, hnext, foldAcc]
  | cons d ds ih =>
    intro n c rest acc hne hdrop hn
    match n, hn with
    | Nat.succ n, hn =>
      obtain ⟨hnext, hdrop1, -⟩ := cursorNext_of_drop_cons _ (by simpa using hdrop)
      have hd : d ≠ ':' := hne d (by simp)
      rw [readLenAux, hnext]
      simp only [hd, if_false]
      rw [ih (fun ch hch => hne ch (by simp [hch])) hdrop1
        (by simp only [List.length_cons] at hn; omega)]
      simp [foldAcc]
      omega

theorem readLenAux_to_end {ds : List Char} :
    ∀ {n : Nat} {c : Cursor} {acc : Option Nat},
    (∀ ch ∈ ds, ch ≠ ':') → c.data.drop c.index = ds →
    ds.length ≤ n →
    readLenAux n c acc = (foldAcc acc ds, ⟨c.index + ds.length, c.data⟩) := by
  induction ds with
  | nil =>
    intro n c acc _ hdrop _
    match n with
    | 0 => simp [readLenAux, foldAcc]
    | Nat.succ n => simp [readLenAux, cursorNext_of_drop_nil hdrop, foldAcc]
  | cons d ds ih =>
    intro n c acc hne hdrop hn
    match n, hn with
    | Nat.succ n, hn =>
      obtain ⟨hnext, hdrop1, -⟩ := cursorNext_of_drop_cons _ hdrop
      have hd : d ≠ ':' := hne d (by simp)
      rw [readLenAux, hnext]
      simp only [hd, if_false]
      rw [ih (fun ch hch => hne ch (by simp [hch])) hdrop1
        (by simp only [List.length_cons] at hn; omega)]
      simp [foldAcc]
      omega

theorem readLen_colon {c : Cursor} {ds : List Char} (rest : List Char) (acc : Option Nat)
    (hne : ∀ ch ∈ ds, ch ≠ ':') (hdrop : c.data.drop c.index = ds ++ ':' :: rest) :
    readLen c acc = (foldAcc acc ds, ⟨c.index + ds.length + 1, c.data⟩) := by
  refine readLenAux_colon hne hdrop ?_
  have := remaining_of_drop hdrop
  simp [List.length_append] at this
  omega

theorem readLen_to_end {c : Cursor} {ds : List Char} (acc : Option Nat)
    (hne : ∀ ch ∈ ds, ch ≠ ':') (hdrop : c.data.drop c.index = ds) :
    readLen c acc = (foldAcc acc ds, ⟨c.index + ds.length, c.data⟩) := by
  refine readLenAux_to_end hne hdrop ?_
  have := remaining_of_drop hdrop
  omega

/-! ### Characterizing `take(n)` -/

theorem takeChars_spec :
    ∀ (n : Nat) (c : Cursor), c.index ≤ c.data.length →
    takeChars c n = ((c.data.drop c.index).take n,
      ⟨min (c.index + n) c.data.length, c.data⟩) := by
  intro n
  induction n with
  | zero =>
    intro c hle
    have hmin : min (c.index + 0) c.data.length = c.index := by omega
    simp only [takeChars, List.take_zero, hmin]
  | succ n ih =>
    intro c hle
    match hdrop : c.data.drop c.index with
    | [] =>
      have hend : c.data.length ≤ c.index := by
        have := remaining_of_drop hdrop
        simp at this
        omega
      have hmin : min (c.index + (n + 1)) c.data.length = c.index := by omega
      rw [takeChars, cursorNext_of_drop_nil hdrop]
      simp only [hdrop, List.take_nil, hmin]
    | ch :: rest =>
      obtain ⟨hnext, hdrop1, hlt⟩ := cursorNext_of_drop_cons _ hdrop
      rw [takeChars, hnext]
      dsimp only
      have hih := ih ⟨c.index + 1, c.data⟩ (by simpa using hlt)
      dsimp only at hih
      rw [hih]
      dsimp only
      rw [hdrop1]
      have harith : c.index + 1 + n = c.index + (n + 1) := by omega
      rw [List.take_succ_cons, harith]

/-! ### Characterizing the integer consumption loop -/

theorem readUntilEAux_marker {ds : List Char} :
    ∀ {n : Nat} {c : Cursor} {rest : List Char},
    (∀ ch ∈ ds, ch ≠ 'e') → c.data.drop c.index = ds ++ 'e' :: rest →
    ds.length + 1 ≤ n →
    readUntilEAux n c = (ds, ⟨c.index + ds.length + 1, c.data⟩) := by
  induction ds with
  | nil =>
    intro n c rest _ hdrop hn
    match n, hn with
    | Nat.succ n, _ =>
      obtain ⟨hnext, -, -⟩ := cursorNext_of_drop_cons _ hdrop
      simp [readUntilEAux, hnext]
  | cons d ds ih =>
    intro n c rest hne hdrop hn
    match n, hn with
    | Nat.succ n, hn =>
      obtain ⟨hnext, hdrop1, -⟩ := cursorNext_of_drop_cons _ (by simpa using hdrop)
      have hd : d ≠ 'e' := hne d (by simp)
      rw [readUntilEAux, hnext]
      simp only [hd, if_false]
      rw [ih (fun ch hch => hne ch (by simp [hch])) hdrop1
        (by simp only [List.length_cons] at hn; omega)]
      simp
      omega

theorem readUntilEAux_to_end {ds : List Char} :
    ∀ {n : Nat} {c : Cursor},
    (∀ ch ∈ ds, ch ≠ 'e') → c.data.drop c.index = ds →
    ds.length ≤ n →
    readUntilEAux n c = (ds, ⟨c.index + ds.length, c.data⟩) := by
  induction ds with
  | nil =>
    intro n c _ hdrop _
    match n with
    | 0 => simp [readUntilEAux]
    | Nat.succ n => simp [readUntilEAux, cursorNext_of_drop_nil hdrop]
  | cons d ds ih =>
    intro n c hne hdrop hn
    match n, hn with
    | Nat.succ n, hn =>
      obtain ⟨hnext, hdrop1, -⟩ := cursorNext_of_drop_cons _ hdrop
      have hd : d ≠ 'e' := hne d (by simp)
      rw [readUntilEAux, hnext]
      simp only [hd, if_false]
      rw [ih (fun ch hch => hne ch (by simp [hch])) hdrop1
        (by simp only [List.length_cons] at hn; omega)]
      simp
      omega

theorem readUntilE_marker {c : Cursor} {ds : List Char} (rest : List Char)
    (hne : ∀ ch ∈ ds, ch ≠ 'e') (hdrop : c.data.drop c.index = ds ++ 'e' :: rest) :
    readUntilE c = (ds, ⟨c.index + ds.length + 1, c.data⟩) := by
  refine readUntilEAux_marker hne hdrop ?_
  have := remaining_of_drop hdrop
  simp [List.length_append] at this
  omega

theorem readUntilE_to_end {c : Cursor} {ds : List Char}
    (hne : ∀ ch ∈ ds, ch ≠ 'e') (hdrop : c.data.drop c.index = ds) :
    readUntilE c = (ds, ⟨c.index + ds.length, c.data⟩) := by
  refine readUntilEAux_to_end hne hdrop ?_
  have := remaining_of_drop hdrop
  omega

/-! ### Decimal representations (used to state the claims about inputs of
the form length-prefix plus content, and integer digit strings) -/

/-- Little-endian decimal digits of `n`; the counter starts at `n`, which
bounds the number of divisions by 10. -/
def decDigitsAux : Nat → Nat → List Nat
  | 0, _ => []
  | Nat.succ fuel, n => if n = 0 then [] else n % 10 :: decDigitsAux fuel (n / 10)

/-- Little-endian decimal digits of `n` (empty for `0`). -/
def decDigits (n : Nat) : List Nat := decDigitsAux n n

/-- The character of a single decimal digit. -/
def charOfDigit (d : Nat) : Char := Char.ofNat (d + 48)

/-- The decimal representation of `n` as characters, most significant digit
first; `"0"` for zero. -/
def decimalRepr (n : Nat) : List Char :=
  if n = 0 then ['0'] else (decDigits n).reverse.map charOfDigit

theorem decDigitsAux_lt :
    ∀ (fuel n : Nat), ∀ d ∈ decDigitsAux fuel n, d < 10 := by
  intro fuel
  induction fuel with
  | zero => intro n d hd; simp [decDigitsAux] at hd
  | succ fuel ih =>
    intro n d hd
    rw [decDigitsAux] at hd
    by_cases hn : n = 0
    · simp [hn] at hd
    · simp only [hn, if_false, List.mem_cons] at hd
      rcases hd with hd | hd
      · subst hd; exact Nat.mod_lt n (by norm_num)
      · exact ih (n / 10) d hd

theorem foldl_decDigitsAux (fuel : Nat) :
    ∀ (n a : Nat), n ≤ fuel →
    ((decDigitsAux fuel n).reverse).foldl (fun x d => 10 * x + d) a
      = a * 10 ^ (decDigitsAux fuel n).length + n := by
  induction fuel with
  | zero =>
    intro n a h
    interval_cases n
    simp [decDigitsAux]
  | succ fuel ih =>
    intro n a h
    by_cases hn : n = 0
    · subst hn; simp [decDigitsAux]
    · have hdiv : n / 10 ≤ fuel := by
        have h1 : n / 10 < n := Nat.div_lt_self (Nat.pos_of_ne_zero hn) (by norm_num)
        omega
      rw [show decDigitsAux (fuel + 1) n = n % 10 :: decDigitsAux fuel (n / 10) from by
        rw [decDigitsAux]; simp [hn]]
      rw [List.reverse_cons, List.foldl_append, ih (n / 10) a hdiv]
      simp only [List.foldl_cons, List.foldl_nil, List.length_cons, pow_succ, ← mul_assoc]
      have hmod : 10 * (n / 10) + n % 10 = n := Nat.div_add_mod n 10
      generalize a * 10 ^ (decDigitsAux fuel (n / 10)).length = Y
      omega

theorem charToDigit_charOfDigit {d : Nat} (h : d < 10) :
    charToDigit (charOfDigit d) = some d := by
  interval_cases d <;> decide

theorem charOfDigit_ne_colon {d : Nat} (h : d < 10) : charOfDigit d ≠ ':' := by
  interval_cases d <;> decide

theorem charOfDigit_ne_e {d : Nat} (h : d < 10) : charOfDigit d ≠ 'e' := by
  interval_cases d <;> decide

/-- Master description of `decimalRepr`: a nonempty digit list below 10 whose
big-endian fold is `n`. -/
theorem decimalRepr_spec (n : Nat) :
    ∃ L : List Nat, L ≠ [] ∧ (∀ d ∈ L, d < 10) ∧
      decimalRepr n = L.map charOfDigit ∧
      L.foldl (fun x d => 10 * x + d) 0 = n := by
  by_cases hn : n = 0
  · subst hn
    exact ⟨[0], by simp, by simp, by simp [decimalRepr, charOfDigit], rfl⟩
  · refine ⟨(decDigits n).reverse, ?_, ?_, ?_, ?_⟩
    · have : decDigits n ≠ [] := by
        unfold decDigits
        match hfuel : n, hn with
        | Nat.succ m, _ => rw [decDigitsAux]; simp
      simpa using this
    · intro d hd
      exact decDigitsAux_lt n n d (List.mem_reverse.mp hd)
    · simp [decimalRepr, hn]
    · have := foldl_decDigitsAux n n 0 (le_refl n)
      simpa [decDigits] using this

/-! ### The digit folds over digit characters -/

theorem foldAcc_none (ds : List Char) : foldAcc none ds = none := by
  induction ds with
  | nil => rfl
  | cons ch cs ih => simpa [foldAcc] using ih

theorem foldAccInt_none (ds : List Char) : foldAccInt none ds = none := by
  induction ds with
  | nil => rfl
  | cons ch cs ih => simpa [foldAccInt] using ih

theorem foldAcc_map :
    ∀ (L : List Nat) (a : Nat), (∀ d ∈ L, d < 10) →
    foldAcc (some a) (L.map charOfDigit)
      = some (L.foldl (fun x d => 10 * x + d) a) := by
  intro L
  induction L with
  | nil => intro a _; rfl
  | cons d ds ih =>
    intro a hlt
    have hd : d < 10 := hlt d (by simp)
    have hstep : foldAcc (some a) ((d :: ds).map charOfDigit)
        = foldAcc (some (10 * a + d)) (ds.map charOfDigit) := by
      simp [foldAcc, charToDigit_charOfDigit hd]
    rw [hstep, ih (10 * a + d) (fun x hx => hlt x (by simp [hx]))]
    rfl

theorem foldAccInt_eq :
    ∀ (ds : List Char) (a : Nat),
    foldAccInt (some (Int.ofNat a)) ds = (foldAcc (some a) ds).map Int.ofNat := by
  intro ds
  induction ds with
  | nil => intro a; rfl
  | cons ch cs ih =>
    intro a
    match hch : charToDigit ch with
    | some d =>
      have hacc : 10 * Int.ofNat a + Int.ofNat d = Int.ofNat (10 * a + d) := by
        simp only [Int.ofNat_eq_natCast]
        push_cast
        ring
      have h1 : foldAccInt (some (Int.ofNat a)) (ch :: cs)
          = foldAccInt (some (Int.ofNat (10 * a + d))) cs := by
        simp only [foldAccInt, List.foldl_cons, Option.some_bind, hch, Option.map_some', hacc]
      have h2 : foldAcc (some a) (ch :: cs) = foldAcc (some (10 * a + d)) cs := by
        simp [foldAcc, hch]
      rw [h1, h2, ih (10 * a + d)]
    | none =>
      have h1 : foldAccInt (some (Int.ofNat a)) (ch :: cs) = foldAccInt none cs := by
        simp only [foldAccInt, List.foldl_cons, Option.some_bind, hch, Option.map_none']
      have h2 : foldAcc (some a) (ch :: cs) = foldAcc none cs := by
        simp [foldAcc, hch]
      rw [h1, h2, foldAccInt_none, foldAcc_none]
      rfl

/-! ### The string decoder on well-formed length-prefixed input -/

/-- `StringDecoder::try_decode` at any cursor position whose remaining input
is a decimal length prefix, a colon, the content `s` of exactly that length,
and arbitrary further input. -/
theorem stringTry_at {c : Cursor} (s rest : List Char)
    (hdrop : c.data.drop c.index = decimalRepr s.length ++ ':' :: (s ++ rest)) :
    stringTry c = some (Value.str (String.mk s),
      ⟨c.index + (decimalRepr s.length).length + 1 + s.length, c.data⟩) := by
  obtain ⟨L, -, hlt, hrepr, hfold⟩ := decimalRepr_spec s.length
  have hne : ∀ ch ∈ decimalRepr s.length, ch ≠ ':' := by
    intro ch hch
    rw [hrepr] at hch
    obtain ⟨d, hd, rfl⟩ := List.mem_map.mp hch
    exact charOfDigit_ne_colon (hlt d hd)
  have hval : foldAcc (some 0) (decimalRepr s.length) = some s.length := by
    rw [hrepr, foldAcc_map L 0 hlt, hfold]
  have hlen1 := readLen_colon _ (some 0) hne hdrop
  rw [hval] at hlen1
  set r := (decimalRepr s.length).length with hr
  have hremain : c.data.length - c.index = r + 1 + (s.length + rest.length) := by
    have := remaining_of_drop hdrop
    simp [List.length_append] at this
    omega
  have h1 : c.data.drop c.index = (decimalRepr s.length ++ [':']) ++ (s ++ rest) := by
    rw [hdrop]
    simp
  have h2 : (c.data.drop c.index).drop (r + 1) = s ++ rest := by
    rw [h1]
    have hlen : (decimalRepr s.length ++ [':']).length = r + 1 := by simp [hr]
    rw [← hlen, List.drop_left]
  have hdrop2 : c.data.drop (c.index + r + 1) = s ++ rest := by
    have h3 := List.drop_drop (r + 1) c.index c.data
    rw [h2] at h3
    rw [show c.index + r + 1 = c.index + (r + 1) from by omega]
    exact h3.symm
  have hle2 : c.index + r + 1 ≤ c.data.length := by omega
  have htake := takeChars_spec s.length ⟨c.index + r + 1, c.data⟩ (by simpa using hle2)
  simp only at htake
  rw [hdrop2, List.take_left] at htake
  have hmin : min (c.index + r + 1 + s.length) c.data.length = c.index + r + 1 + s.length := by
    omega
  rw [hmin] at htake
  unfold stringTry
  rw [hlen1]
  dsimp only
  rw [htake]

/-- Claim C1: for every string `s` of length `n`, decoding the input formed
as the decimal representation of `n`, then a colon, then `s`, with the string
decoder succeeds, yields exactly the string `s`, and advances the cursor
(from position 0) by exactly the number of digits of `n`, plus one for the
colon, plus `n`. -/
theorem claimC1_string_decode_exact (s : List Char) :
    stringTry ⟨0, decimalRepr s.length ++ ':' :: s⟩
      = some (Value.str (String.mk s),
          ⟨(decimalRepr s.length).length + 1 + s.length,
           decimalRepr s.length ++ ':' :: s⟩) := by
  have h := stringTry_at (c := ⟨0, decimalRepr s.length ++ ':' :: s⟩) s []
    (by simp)
  simpa using h

/-- Claim C2: for every element decoder of `src/lib.rs` (String, Integer,
List, Dict, Failure) and every input cursor, if the decode attempt fails
(`run_decoder` returns no value) then the cursor handed back to the caller is
the original cursor, unchanged in position and data. -/
theorem claimC2_failure_preserves_cursor (fuel : Nat) (k : DecoderKind) (c : Cursor)
    (h : (runDecoder (decodeK fuel k) c).1 = none) :
    (runDecoder (decodeK fuel k) c).2 = c := by
  cases hd : decodeK fuel k c with
  | none => simp [runDecoder, hd]
  | some vr => simp [runDecoder, hd] at h

/-- Witness for C2: the failure decoder on a concrete cursor fails and hands
back exactly that cursor. -/
theorem claimC2_witness :
    (runDecoder (decodeK 0 DecoderKind.fail) ⟨0, ['x']⟩).1 = none
      ∧ (runDecoder (decodeK 0 DecoderKind.fail) ⟨0, ['x']⟩).2 = ⟨0, ['x']⟩ :=
  ⟨rfl, claimC2_failure_preserves_cursor 0 DecoderKind.fail ⟨0, ['x']⟩ rfl⟩

/-! ### The integer decoder on digit strings -/

/-- Counterexample to C4 as stated: on the input `"i3"` — a leading `'i'`,
decimal digits, and no terminating `'e'` — the integer decoder does not
fail; it succeeds with the value 3, having consumed the whole input. -/
theorem claimC4_counterexample :
    intTry ⟨0, "i3".toList⟩ = some (Value.int 3, ⟨2, "i3".toList⟩)
      ∧ intTry ⟨0, "i3".toList⟩ ≠ none := by
  refine ⟨rfl, ?_⟩
  intro h
  rw [show intTry ⟨0, "i3".toList⟩ = some (Value.int 3, ⟨2, "i3".toList⟩) from rfl] at h
  exact Option.noConfusion h

/-- Amended C4: the integer decoder treats end of input exactly like the
terminator: for every input consisting of `'i'` followed by the decimal
digits of `n` and nothing else — the terminating `'e'` absent — it succeeds
with the value `n`, the cursor at the end of the input. -/
theorem claimC4_amended (n : Nat) :
    intTry ⟨0, 'i' :: decimalRepr n⟩
      = some (Value.int (Int.ofNat n),
          ⟨1 + (decimalRepr n).length, 'i' :: decimalRepr n⟩) := by
  obtain ⟨L, hLne, hlt, hrepr, hfold⟩ := decimalRepr_spec n
  match hL : L, hLne, hlt, hrepr, hfold with
  | d0 :: Ltl, _, hlt, hrepr, hfold =>
  rw [List.map_cons] at hrepr
  have hd0 : d0 < 10 := hlt d0 (by simp)
  have h0 : cursorNext ⟨0, 'i' :: decimalRepr n⟩ = some ('i', ⟨1, 'i' :: decimalRepr n⟩) :=
    (cursorNext_of_drop_cons (decimalRepr n) (by simp)).1
  have h1 : cursorNext ⟨1, 'i' :: decimalRepr n⟩
      = some (charOfDigit d0, ⟨2, 'i' :: decimalRepr n⟩) :=
    (cursorNext_of_drop_cons (Ltl.map charOfDigit) (by simp [hrepr])).1
  have hne_e : charOfDigit d0 ≠ 'e' := charOfDigit_ne_e hd0
  have hdig : charToDigit (charOfDigit d0) = some d0 := charToDigit_charOfDigit hd0
  have hread : readUntilE ⟨2, 'i' :: decimalRepr n⟩
      = (Ltl.map charOfDigit, ⟨2 + (Ltl.map charOfDigit).length, 'i' :: decimalRepr n⟩) := by
    have hne : ∀ ch ∈ Ltl.map charOfDigit, ch ≠ 'e' := by
      intro ch hch
      obtain ⟨d, hd, rfl⟩ := List.mem_map.mp hch
      exact charOfDigit_ne_e (hlt d (by simp [hd]))
    exact readUntilE_to_end hne (by simp [hrepr])
  have hfoldv : foldAccInt (some (Int.ofNat d0)) (Ltl.map charOfDigit)
      = some (Int.ofNat n) := by
    rw [foldAccInt_eq, foldAcc_map Ltl d0 (fun d hd => hlt d (by simp [hd]))]
    have : Ltl.foldl (fun x d => 10 * x + d) d0 = n := by
      rw [List.foldl_cons] at hfold
      simpa using hfold
    rw [this]
    rfl
  unfold intTry
  rw [h0]
  dsimp only
  rw [h1]
  dsimp only
  rw [if_neg hne_e, hdig]
  dsimp only
  rw [hread]
  dsimp only
  rw [hfoldv]
  have hlen : 2 + (Ltl.map charOfDigit).length = 1 + (decimalRepr n).length := by
    simp [hrepr]
    omega
  rw [hlen]

/-- Counterexample to C10 as stated: `"i+3e"` is not rejected: the decoder
accepts `'+'` as a sign marker meaning negative and yields -3. -/
theorem claimC10_counterexample :
    intTry ⟨0, "i+3e".toList⟩ = some (Value.int (-3), ⟨4, "i+3e".toList⟩)
      ∧ intTry ⟨0, "i+3e".toList⟩ ≠ none := by
  refine ⟨rfl, ?_⟩
  intro h
  rw [show intTry ⟨0, "i+3e".toList⟩ = some (Value.int (-3), ⟨4, "i+3e".toList⟩) from rfl] at h
  exact Option.noConfusion h

/-- Amended C10: after the leading `'i'`, any single non-digit character —
not only `'-'` — is accepted as the sign marker and makes the result
negative: for every non-digit `sign` other than `'e'` and every `n`,
decoding `'i'`, then `sign`, then the digits of `n`, then `'e'` succeeds
with value `-n` and the cursor past the terminator. -/
theorem claimC10_amended (sign : Char) (n : Nat)
    (hsd : charToDigit sign = none) (hse : sign ≠ 'e') :
    intTry ⟨0, 'i' :: sign :: (decimalRepr n ++ ['e'])⟩
      = some (Value.int (-(Int.ofNat n)),
          ⟨(decimalRepr n).length + 3, 'i' :: sign :: (decimalRepr n ++ ['e'])⟩) := by
  obtain ⟨L, hLne, hlt, hrepr, hfold⟩ := decimalRepr_spec n
  match hL : L, hLne, hlt, hrepr, hfold with
  | d0 :: Ltl, _, hlt, hrepr, hfold =>
  rw [List.map_cons] at hrepr
  have hd0 : d0 < 10 := hlt d0 (by simp)
  have h0 : cursorNext ⟨0, 'i' :: sign :: (decimalRepr n ++ ['e'])⟩
      = some ('i', ⟨1, 'i' :: sign :: (decimalRepr n ++ ['e'])⟩) :=
    (cursorNext_of_drop_cons (sign :: (decimalRepr n ++ ['e'])) (by simp)).1
  have h1 : cursorNext ⟨1, 'i' :: sign :: (decimalRepr n ++ ['e'])⟩
      = some (sign, ⟨2, 'i' :: sign :: (decimalRepr n ++ ['e'])⟩) :=
    (cursorNext_of_drop_cons (decimalRepr n ++ ['e']) (by simp)).1
  have h2 : cursorNext ⟨2, 'i' :: sign :: (decimalRepr n ++ ['e'])⟩
      = some (charOfDigit d0, ⟨3, 'i' :: sign :: (decimalRepr n ++ ['e'])⟩) :=
    (cursorNext_of_drop_cons (Ltl.map charOfDigit ++ ['e']) (by simp [hrepr])).1
  have hne_e : charOfDigit d0 ≠ 'e' := charOfDigit_ne_e hd0
  have hdig : charToDigit (charOfDigit d0) = some d0 := charToDigit_charOfDigit hd0
  have hread : readUntilE ⟨3, 'i' :: sign :: (decimalRepr n ++ ['e'])⟩
      = (Ltl.map charOfDigit,
         ⟨3 + (Ltl.map charOfDigit).length + 1, 'i' :: sign :: (decimalRepr n ++ ['e'])⟩) := by
    have hne : ∀ ch ∈ Ltl.map charOfDigit, ch ≠ 'e' := by
      intro ch hch
      obtain ⟨d, hd, rfl⟩ := List.mem_map.mp hch
      exact charOfDigit_ne_e (hlt d (by simp [hd]))
    refine readUntilE_marker [] hne ?_
    simp [hrepr]
  have hfoldv : foldAccInt (some (Int.ofNat d0)) (Ltl.map charOfDigit)
      = some (Int.ofNat n) := by
    rw [foldAccInt_eq, foldAcc_map Ltl d0 (fun d hd => hlt d (by simp [hd]))]
    have : Ltl.foldl (fun x d => 10 * x + d) d0 = n := by
      rw [List.foldl_cons] at hfold
      simpa using hfold
    rw [this]
    rfl
  unfold intTry
  rw [h0]
  dsimp only
  rw [h1]
  dsimp only
  rw [if_neg hse, hsd]
  dsimp only
  rw [h2]
  dsimp only
  rw [if_neg hne_e, hdig]
  dsimp only
  rw [hread]
  dsimp only
  rw [hfoldv]
  have hlen : 3 + (Ltl.map charOfDigit).length + 1 = (decimalRepr n).length + 3 := by
    simp [hrepr]
    omega
  rw [hlen]

/-- Witness for the amended C10 at the concrete input `"i+3e"`. -/
theorem claimC10_witness :
    charToDigit '+' = none ∧ '+' ≠ 'e'
      ∧ intTry ⟨0, 'i' :: '+' :: (decimalRepr 3 ++ ['e'])⟩
          = some (Value.int (-(Int.ofNat 3)),
              ⟨(decimalRepr 3).length + 3, 'i' :: '+' :: (decimalRepr 3 ++ ['e'])⟩) :=
  ⟨by decide, by decide, claimC10_amended '+' 3 (by decide) (by decide)⟩

/-! ### The string decoder on truncated and colon-free input -/

/-- Counterexample to C5 as stated: on `"10:abc"` — length prefix 10, only
3 characters remaining — the string decoder does not return `None`: it
succeeds with the truncated content `"abc"`. -/
theorem claimC5_counterexample :
    stringTry ⟨0, "10:abc".toList⟩ = some (Value.str "abc", ⟨6, "10:abc".toList⟩)
      ∧ stringTry ⟨0, "10:abc".toList⟩ ≠ none := by
  refine ⟨rfl, ?_⟩
  intro h
  rw [show stringTry ⟨0, "10:abc".toList⟩
      = some (Value.str "abc", ⟨6, "10:abc".toList⟩) from rfl] at h
  exact Option.noConfusion h

/-- Amended C5: when the length prefix and colon parse but fewer than
`length` characters remain, the string decoder still succeeds: `take(length)`
simply stops at the end of input, so the result is the whole remaining
content (truncated), with the cursor at the end. -/
theorem claimC5_amended (n : Nat) (s : List Char) (hshort : s.length < n) :
    stringTry ⟨0, decimalRepr n ++ ':' :: s⟩
      = some (Value.str (String.mk s),
          ⟨(decimalRepr n).length + 1 + s.length, decimalRepr n ++ ':' :: s⟩) := by
  obtain ⟨L, -, hlt, hrepr, hfold⟩ := decimalRepr_spec n
  have hne : ∀ ch ∈ decimalRepr n, ch ≠ ':' := by
    intro ch hch
    rw [hrepr] at hch
    obtain ⟨d, hd, rfl⟩ := List.mem_map.mp hch
    exact charOfDigit_ne_colon (hlt d hd)
  have hval : foldAcc (some 0) (decimalRepr n) = some n := by
    rw [hrepr, foldAcc_map L 0 hlt, hfold]
  have hlen1 := readLen_colon (c := ⟨0, decimalRepr n ++ ':' :: s⟩) s (some 0) hne (by simp)
  rw [hval] at hlen1
  set r := (decimalRepr n).length with hr
  have hlenD : (decimalRepr n ++ ':' :: s).length = r + 1 + s.length := by
    simp [hr]
    omega
  have hdrop2 : (decimalRepr n ++ ':' :: s).drop (r + 1) = s := by
    rw [show decimalRepr n ++ ':' :: s = (decimalRepr n ++ [':']) ++ s from by simp]
    rw [show r + 1 = (decimalRepr n ++ [':']).length from by simp [hr], List.drop_left]
  have htake := takeChars_spec n ⟨r + 1, decimalRepr n ++ ':' :: s⟩ (by simp [hlenD])
  dsimp only at htake
  rw [hdrop2, List.take_of_length_le (Nat.le_of_lt hshort)] at htake
  have hmin : min (r + 1 + n) (decimalRepr n ++ ':' :: s).length = r + 1 + s.length := by
    rw [hlenD]
    omega
  rw [hmin] at htake
  dsimp only at hlen1
  simp only [Nat.zero_add] at hlen1
  unfold stringTry
  rw [hlen1]
  dsimp only
  rw [htake]

/-- Witness for the amended C5 at the concrete input `"10:abc"`. -/
theorem claimC5_witness :
    ("abc".toList.length < 10)
      ∧ stringTry ⟨0, decimalRepr 10 ++ ':' :: "abc".toList⟩
          = some (Value.str (String.mk "abc".toList),
              ⟨(decimalRepr 10).length + 1 + "abc".toList.length,
               decimalRepr 10 ++ ':' :: "abc".toList⟩) :=
  ⟨by decide, claimC5_amended 10 "abc".toList (by decide)⟩

/-- Counterexample to C6 as stated: on the all-digit input `"5"` with no
colon anywhere, the string decoder does not return `None`: it succeeds with
the empty string, the digit consumed as a length prefix. -/
theorem claimC6_counterexample :
    stringTry ⟨0, "5".toList⟩ = some (Value.str "", ⟨1, "5".toList⟩)
      ∧ stringTry ⟨0, "5".toList⟩ ≠ none := by
  refine ⟨rfl, ?_⟩
  intro h
  rw [show stringTry ⟨0, "5".toList⟩ = some (Value.str "", ⟨1, "5".toList⟩) from rfl] at h
  exact Option.noConfusion h

/-- The digit fold never fails over characters that are all digits. -/
theorem foldAcc_isSome (ds : List Char)
    (hds : ∀ ch ∈ ds, (charToDigit ch).isSome = true) :
    ∀ a : Nat, ∃ v, foldAcc (some a) ds = some v := by
  induction ds with
  | nil => intro a; exact ⟨a, rfl⟩
  | cons ch cs ih =>
    intro a
    have h := hds ch (by simp)
    match hch : charToDigit ch with
    | some d =>
      have hstep : foldAcc (some a) (ch :: cs) = foldAcc (some (10 * a + d)) cs := by
        simp [foldAcc, hch]
      rw [hstep]
      exact ih (fun x hx => hds x (by simp [hx])) (10 * a + d)
    | none =>
      rw [hch] at h
      simp at h

/-- Amended C6: on an input consisting only of digit characters with no
colon, the string decoder succeeds rather than failing: the digits are all
consumed as the length prefix, no content characters remain, and the result
is the empty string with the cursor at the end of the input. -/
theorem claimC6_amended (ds : List Char)
    (hds : ∀ ch ∈ ds, (charToDigit ch).isSome = true) :
    stringTry ⟨0, ds⟩ = some (Value.str "", ⟨ds.length, ds⟩) := by
  have hne : ∀ ch ∈ ds, ch ≠ ':' := by
    intro ch hch heq
    subst heq
    exact absurd (hds ':' hch) (by decide)
  have hlen1 := readLen_to_end (c := ⟨0, ds⟩) (some 0) hne (by simp)
  obtain ⟨v, hv⟩ := foldAcc_isSome ds hds 0
  rw [hv] at hlen1
  simp only [Nat.zero_add] at hlen1
  have htake := takeChars_spec v ⟨ds.length, ds⟩ (by simp)
  dsimp only at htake
  rw [List.drop_length] at htake
  have hmin : min (ds.length + v) ds.length = ds.length := by omega
  rw [hmin, List.take_nil] at htake
  unfold stringTry
  rw [hlen1]
  dsimp only
  rw [htake]

/-- Witness for the amended C6 at the concrete all-digit input `"5"`. -/
theorem claimC6_witness :
    (∀ ch ∈ ['5'], (charToDigit ch).isSome = true)
      ∧ stringTry ⟨0, ['5']⟩ = some (Value.str "", ⟨['5'].length, ['5']⟩) :=
  ⟨by decide, claimC6_amended ['5'] (by decide)⟩

/-! ### Top-level decode behaviour on the malformed test inputs -/

/-- Counterexample to C7 as stated: one of the listed malformed inputs,
`"i3"`, does not make the top-level decode signal failure: it returns the
integer 3. -/
theorem claimC7_counterexample :
    decode_bencoded_value "i3" = some (Value.int 3)
      ∧ decode_bencoded_value "i3" ≠ none := by
  refine ⟨rfl, ?_⟩
  intro h
  rw [show decode_bencoded_value "i3" = some (Value.int 3) from rfl] at h
  exact Option.noConfusion h

/-- Amended C7: of the six listed inputs, `"4spam"`, `"l4:spam"`, the
unterminated dict `"d3:foo3:bar"` and the empty input make the top-level
decode fail — and in the Rust entry point that failure is a `panic!` with a
diagnostic, not an error return — while `"i3"` and `"10:abc"` are accepted,
decoding to the integer 3 and the truncated string `"abc"`. -/
theorem claimC7_amended :
    decode_bencoded_value "i3" = some (Value.int 3)
      ∧ decode_bencoded_value "4spam" = none
      ∧ decode_bencoded_value "10:abc" = some (Value.str "abc")
      ∧ decode_bencoded_value "l4:spam" = none
      ∧ decode_bencoded_value "d3:foo3:bar" = none
      ∧ decode_bencoded_value "" = none :=
  ⟨rfl, rfl, rfl, rfl, rfl, rfl⟩

/-- Counterexample to C8 as stated: the decode logic of the two files is not
the same; on `"l4:spam"` the `src/main.rs` decode and the `src/lib.rs`
decode produce different outcomes. -/
theorem claimC8_counterexample :
    main_decode_bencoded_value "l4:spam" ≠ decode_bencoded_value "l4:spam" := by
  intro h
  rw [show main_decode_bencoded_value "l4:spam"
      = some (Value.list [Value.str "spam"]) from rfl,
    show decode_bencoded_value "l4:spam" = none from rfl] at h
  exact Option.noConfusion h

/-- Amended C8: the duplicated decode logic differs between the two files:
the `src/main.rs` dispatcher has no dict case and its list decoder neither
requires nor consumes the closing terminator, so the two top-level decoders
disagree — `"l4:spam"` decodes to a one-element list in `src/main.rs` but
fails in `src/lib.rs`, and `"de"` decodes to the empty dict in `src/lib.rs`
but fails in `src/main.rs`. -/
theorem claimC8_amended :
    main_decode_bencoded_value "l4:spam" = some (Value.list [Value.str "spam"])
      ∧ decode_bencoded_value "l4:spam" = none
      ∧ decode_bencoded_value "de" = some (Value.dict [])
      ∧ main_decode_bencoded_value "de" = none :=
  ⟨rfl, rfl, rfl, rfl⟩

/-! ### The dict decoder on a key with no value -/

/-- The failure decoder yields nothing at every fuel. -/
theorem decodeK_fail (fuel : Nat) (c : Cursor) :
    decodeK fuel DecoderKind.fail c = none := by
  cases fuel <;> rfl

/-- Counterexample to C3 as stated: `"d3:fooe"` — a string key with no
corresponding value before the closing terminator — is not rejected by the
dict decoder: it succeeds with the empty dict, the whole input consumed. -/
theorem claimC3_counterexample :
    decodeK 8 DecoderKind.dict ⟨0, "d3:fooe".toList⟩
      = some (Value.dict [], ⟨7, "d3:fooe".toList⟩)
      ∧ decodeK 8 DecoderKind.dict ⟨0, "d3:fooe".toList⟩ ≠ none := by
  refine ⟨rfl, ?_⟩
  intro h
  rw [show decodeK 8 DecoderKind.dict ⟨0, "d3:fooe".toList⟩
      = some (Value.dict [], ⟨7, "d3:fooe".toList⟩) from rfl] at h
  exact Option.noConfusion h

/-- Amended C3: a string key with no corresponding value does not make the
dict decoder fail: the key is decoded, its cursor advancement is kept, the
pair loop stops, the dangling key is silently dropped, and the decode
succeeds when the closing terminator follows.  In general, for every key
content `s`, decoding `'d'`, then the string encoding of `s`, then `'e'`
yields the empty dict. -/
theorem claimC3_amended (fuel : Nat) (s : List Char) :
    decodeK (fuel + 2) DecoderKind.dict
        ⟨0, 'd' :: (decimalRepr s.length ++ ':' :: (s ++ ['e']))⟩
      = some (Value.dict [],
          ⟨(decimalRepr s.length).length + s.length + 3,
           'd' :: (decimalRepr s.length ++ ':' :: (s ++ ['e']))⟩) := by
  set D := 'd' :: (decimalRepr s.length ++ ':' :: (s ++ ['e'])) with hD
  set r := (decimalRepr s.length).length with hr
  have h0 : cursorNext ⟨0, D⟩ = some ('d', ⟨1, D⟩) :=
    (cursorNext_of_drop_cons
      (decimalRepr s.length ++ ':' :: (s ++ ['e'])) (by simp [hD])).1
  have hkey : stringTry ⟨1, D⟩
      = some (Value.str (String.mk s), ⟨1 + r + 1 + s.length, D⟩) := by
    have h := stringTry_at (c := ⟨1, D⟩) s ['e'] (by simp [hD])
    simpa [hr] using h
  have hdropE : D.drop (1 + r + 1 + s.length) = ['e'] := by
    have hsplit : D = (('d' :: decimalRepr s.length) ++ (':' :: s)) ++ ['e'] := by
      simp [hD]
    rw [hsplit]
    rw [show 1 + r + 1 + s.length = (('d' :: decimalRepr s.length) ++ (':' :: s)).length from by
      simp [hr]
      omega]
    exact List.drop_left _ _
  have hnextE : cursorNext ⟨1 + r + 1 + s.length, D⟩
      = some ('e', ⟨1 + r + 1 + s.length + 1, D⟩) :=
    (cursorNext_of_drop_cons [] hdropE).1
  have hdisp : next_decoder ⟨1 + r + 1 + s.length, D⟩ = DecoderKind.fail := by
    unfold next_decoder
    rw [hnextE]
    rfl
  have hpairs : decodePairs (fuel + 1) ⟨1, D⟩ = ([], ⟨1 + r + 1 + s.length, D⟩) := by
    rw [show fuel + 1 = Nat.succ fuel from rfl, decodePairs]
    unfold runDecoder
    rw [hkey]
    dsimp only
    rw [hdisp, decodeK_fail]
  rw [show fuel + 2 = Nat.succ (fuel + 1) from rfl, decodeK]
  rw [h0]
  dsimp only
  simp only [if_true]
  rw [hpairs]
  dsimp only
  rw [hnextE]
  dsimp only
  simp only [if_true]
  have harith : 1 + r + 1 + s.length + 1 = r + s.length + 3 := by omega
  rw [harith]
  rfl

/-! ### Dict insertion order -/

/-- Folding `mapInsert` over pairs with pairwise-distinct keys appends each
pair in order: the resulting map lists the pairs exactly in insertion
order. -/
theorem buildMap_preserves (ps : List (String × Value)) :
    ∀ acc : List (String × Value),
    ((acc ++ ps).map Prod.fst).Nodup →
    ps.foldl (fun m kv => mapInsert m kv.1 kv.2) acc = acc ++ ps := by
  induction ps with
  | nil => intro acc _; simp
  | cons kv ps ih =>
    intro acc hnd
    obtain ⟨k, v⟩ := kv
    have hnd' := hnd
    rw [List.map_append, List.map_cons, List.nodup_append] at hnd'
    obtain ⟨-, -, h3⟩ := hnd'
    have hknot : k ∉ acc.map Prod.fst := fun hk => h3 hk (by simp)
    have hfalse : (acc.any fun p => p.1 = k) = false := by
      rw [List.any_eq_false]
      intro p hp
      simp only [decide_eq_true_eq]
      intro hpk
      exact hknot (List.mem_map.mpr ⟨p, hp, hpk⟩)
    have hins : mapInsert acc k v = acc ++ [(k, v)] := by
      unfold mapInsert
      rw [hfalse]
      rfl
    rw [List.foldl_cons]
    dsimp only
    rw [hins, ih (acc ++ [(k, v)]) (by simpa using hnd)]
    simp

/-- Claim C9: whenever the dict decoder of `src/lib.rs` succeeds and the
keys it parsed are pairwise distinct, the mapping it returns lists exactly
the key/value pairs in the order they appear in the input — iteration and
serialization of the decoded dict follow insertion order. -/
theorem claimC9_dict_insertion_order (fuel : Nat) (c c1 : Cursor)
    (m : List (String × Value)) (c2 : Cursor)
    (hd : cursorNext c = some ('d', c1))
    (hnodup : (((decodePairs fuel c1).1).map Prod.fst).Nodup)
    (hres : decodeK (Nat.succ fuel) DecoderKind.dict c = some (Value.dict m, c2)) :
    m = (decodePairs fuel c1).1 := by
  rw [decodeK, hd] at hres
  dsimp only at hres
  rw [if_pos rfl] at hres
  cases hnext : cursorNext (decodePairs fuel c1).2 with
  | none => rw [hnext] at hres; exact Option.noConfusion hres
  | some pc =>
    obtain ⟨ch, c3⟩ := pc
    rw [hnext] at hres
    dsimp only at hres
    by_cases hch : ch = 'e'
    · rw [if_pos hch] at hres
      have h2 : buildMap (decodePairs fuel c1).1 = m := by
        have h1 := Option.some.inj hres
        have h0 := congrArg Prod.fst h1
        dsimp only at h0
        injection h0
      rw [← h2]
      have := buildMap_preserves (decodePairs fuel c1).1 [] (by simpa using hnodup)
      simpa [buildMap] using this
    · rw [if_neg hch] at hres
      exact Option.noConfusion hres

/-- Witness for C9 on the concrete three-key dict whose keys appear in the
non-sorted input order b, a, c. -/
theorem claimC9_witness :
    cursorNext ⟨0, "d1:b1:x1:a1:y1:c1:ze".toList⟩
        = some ('d', ⟨1, "d1:b1:x1:a1:y1:c1:ze".toList⟩)
      ∧ (((decodePairs 20 ⟨1, "d1:b1:x1:a1:y1:c1:ze".toList⟩).1).map Prod.fst).Nodup
      ∧ decodeK 21 DecoderKind.dict ⟨0, "d1:b1:x1:a1:y1:c1:ze".toList⟩
          = some (Value.dict
                [("b", Value.str "x"), ("a", Value.str "y"), ("c", Value.str "z")],
              ⟨20, "d1:b1:x1:a1:y1:c1:ze".toList⟩)
      ∧ [("b", Value.str "x"), ("a", Value.str "y"), ("c", Value.str "z")]
          = (decodePairs 20 ⟨1, "d1:b1:x1:a1:y1:c1:ze".toList⟩).1 :=
  ⟨rfl, by decide, rfl,
    claimC9_dict_insertion_order 20 ⟨0, "d1:b1:x1:a1:y1:c1:ze".toList⟩
      ⟨1, "d1:b1:x1:a1:y1:c1:ze".toList⟩
      [("b", Value.str "x"), ("a", Value.str "y"), ("c", Value.str "z")]
      ⟨20, "d1:b1:x1:a1:y1:c1:ze".toList⟩ rfl (by decide) rfl⟩
